import Mathlib

/-!
Verification development for the Goldbach mass-verification program
(`verificador_goldbach.py`, `test_verificacion_rapida.py`).

The Python code is shallowly embedded: Python integers become `Nat`,
Python lists become `List`, the boolean sieve arrays become `List Bool`
updated with `List.set`, and the global prime cache (`_cache_primos`)
becomes an explicit association list threaded through
`obtener_primos_hasta` and `verificar_goldbach_rango`.  `int(math.sqrt x)`
is modelled as the exact integer square root `isqrt` (faithful for every
input the program can reach before floating-point `sqrt` degrades, and
identified with `Nat.sqrt` below).  Wall-clock readings
(`time.time()`, the `tiempo` / `tiempo_total` / `inicio_sesion` fields)
are not modelled: they carry no verification content.
-/

/-- Auxiliary linear search for `isqrt`: the largest `j ≤ k` with
`j * j ≤ n` (or `0`). -/
def isqrtAux (n : Nat) : Nat → Nat
  | 0 => 0
  | k + 1 => if (k + 1) * (k + 1) ≤ n then k + 1 else isqrtAux n k

/-- `int(math.sqrt(n))`, modelled exactly as the integer square root.
Structurally recursive so that it evaluates inside the kernel;
`isqrt_eq_sqrt` below identifies it with `Nat.sqrt`. -/
def isqrt (n : Nat) : Nat := isqrtAux n n

/-- Semantics of Python `range(a, b, s)` (for `0 < s`): the list
`a, a + s, a + 2*s, ...` of values `< b`.  Defined with fuel `b - a`,
which suffices because each step advances by at least one. -/
def pyRangeAux : Nat → Nat → Nat → Nat → List Nat
  | 0, _, _, _ => []
  | fuel + 1, a, b, s => if a < b then a :: pyRangeAux fuel (a + s) b s else []

/-- Python `range(a, b, s)`. -/
def pyRange (a b s : Nat) : List Nat := pyRangeAux (b - a) a b s

/-- The strike loop `for j in js: arr[j] = False` on a boolean array. -/
def marcar (arr : List Bool) (js : List Nat) : List Bool :=
  js.foldl (fun a j => a.set j false) arr

/-- The initial sieve array `[True] * n` with `arr[0] = arr[1] = False`. -/
def arrInicial (n : Nat) : List Bool :=
  ((List.replicate n true).set 0 false).set 1 false

/-- The classic sieve loop
`for i in is: if arr[i]: for j in range(i*i, n, i): arr[j] = False`,
shared by `criba_eratostenes_simple` (with `n = limite + 1`) and by
phase 1 of `criba_eratostenes_segmentada` (with `n = sqrt_limite`). -/
def cribaLoop (n : Nat) : List Bool → List Nat → List Bool
  | arr, [] => arr
  | arr, i :: is =>
      cribaLoop n (if arr.getD i false then marcar arr (pyRange (i * i) n i) else arr) is

/-- Sieve array of size `n` after striking with every `i` in `range(2, b+1)`. -/
def cribaBase (n b : Nat) : List Bool :=
  cribaLoop n (arrInicial n) (pyRange 2 (b + 1) 1)

/-- `[i for i in range(len(arr)) if arr[i]]`. -/
def sobrevivientes (arr : List Bool) : List Nat :=
  (pyRange 0 arr.length 1).filter (fun i => arr.getD i false)

/-- `criba_eratostenes_simple` from `test_verificacion_rapida.py`:
flat sieve over `[0, limite]` with base bound `int(sqrt(limite))`. -/
def criba_eratostenes_simple (limite : Nat) : List Nat :=
  if limite < 2 then []
  else sobrevivientes (cribaBase (limite + 1) (isqrt limite))

/-- `primer_multiplo` computation inside the segment loop of
`criba_eratostenes_segmentada`, including both (dead) adjustment branches. -/
def primerMultiplo (inicio p : Nat) : Nat :=
  let m := ((inicio + p - 1) / p) * p
  let m' := if m < inicio then m + p else m
  if m' = p then m' + p else m'

/-- One segment `[inicio, fin)` of the segmented sieve: start all-true and
strike, for every small prime `p`, the positions `j - inicio` for
`j in range(primer_multiplo, fin, p)`. -/
def cribarSegmento (inicio fin : Nat) (primosPequenos : List Nat) : List Bool :=
  primosPequenos.foldl
    (fun seg p =>
      (pyRange (primerMultiplo inicio p) fin p).foldl
        (fun a j => a.set (j - inicio) false) seg)
    (List.replicate (fin - inicio) true)

/-- `criba_eratostenes_segmentada` from `verificador_goldbach.py`. -/
def criba_eratostenes_segmentada (limite : Nat) : List Nat :=
  if limite < 2 then []
  else
    let sqrtLimite := isqrt limite + 1
    let primosPequenos := sobrevivientes (cribaBase sqrtLimite (isqrt sqrtLimite))
    if limite ≤ sqrtLimite then primosPequenos.filter (fun p => p ≤ limite)
    else
      let tamanoSegmento := min sqrtLimite 1000000
      primosPequenos ++
        (pyRange sqrtLimite (limite + 1) tamanoSegmento).flatMap (fun inicio =>
          let fin := min (inicio + tamanoSegmento) (limite + 1)
          let seg := cribarSegmento inicio fin primosPequenos
          ((pyRange 0 (fin - inicio) 1).filter (fun i => seg.getD i false)).map
            (fun i => inicio + i))

/-- The prime cache `_cache_primos` / `_cache_set_primos`: an insertion-ordered
map from a bound to the prime list computed for it (the set mirror holds the
same elements, so one list per key models both dictionaries). -/
abbrev CachePrimos := List (Nat × List Nat)

/-- `obtener_primos_hasta`: look the bound up in the cache, otherwise sieve
and insert.  Returns the prime list together with the updated cache. -/
def obtener_primos_hasta (cache : CachePrimos) (n : Nat) : List Nat × CachePrimos :=
  match cache.find? (fun kv => kv.1 == n) with
  | some kv => (kv.2, cache)
  | none =>
      let primos := criba_eratostenes_segmentada n
      (primos, cache ++ [(n, primos)])

/-- The result dictionary built by `verificar_goldbach_rango`
(the wall-clock `tiempo` entry is not modelled). -/
structure Resultado where
  rango : Nat × Nat
  verificados : Nat
  cumple : Nat
  no_cumple : List Nat
  min_representaciones : ℕ∞
  max_representaciones : Nat
deriving DecidableEq

/-- The inner counting loop of `verificar_goldbach_rango` for one `n`:
`for p in primos: if p > n // 2: break; if (n - p) in set_primos: count += 1`.
The `break` is `takeWhile`, set membership is list membership. -/
def representacionesDe (primos : List Nat) (n : Nat) : Nat :=
  ((primos.takeWhile fun p => decide (p ≤ n / 2)).countP fun p => primos.contains (n - p))

/-- The body of the `for n in range(n_inicio, n_fin + 1, 2)` loop of
`verificar_goldbach_rango`, updating the result dictionary for one `n`. -/
def procesarN (primos : List Nat) (r : Resultado) (n : Nat) : Resultado :=
  let reps := representacionesDe primos n
  let r := { r with verificados := r.verificados + 1 }
  if 0 < reps then
    { r with cumple := r.cumple + 1,
             min_representaciones := min r.min_representaciones (reps : ℕ∞),
             max_representaciones := max r.max_representaciones reps }
  else
    { r with no_cumple := r.no_cumple ++ [n] }

/-- `verificar_goldbach_rango` (the `verbose` argument is unused by the
source and dropped): normalize an odd `n_inicio` to the next even number,
fetch primes up to `n_fin` through the cache, then verify every even `n`
in `[n_inicio, n_fin]`. -/
def verificar_goldbach_rango (nInicio nFin : Nat) (cache : CachePrimos) :
    Resultado × CachePrimos :=
  let nInicio := if nInicio % 2 ≠ 0 then nInicio + 1 else nInicio
  let pc := obtener_primos_hasta cache nFin
  let r0 : Resultado := ⟨(nInicio, nFin), 0, 0, [], ⊤, 0⟩
  ((pyRange nInicio (nFin + 1) 2).foldl (procesarN pc.1) r0, pc.2)

/-- The persisted progress record (`progreso_goldbach.json`); the wall-clock
fields `tiempo_total` and `inicio_sesion` are not modelled. -/
structure Progreso where
  ultimo_n_verificado : Nat
  total_verificados : Nat
  total_cumple : Nat
  contraejemplos : List Nat
deriving DecidableEq

/-- The consolidation step of `verificacion_masiva_goldbach` for one
`Resultado`. -/
def consolidar (p : Progreso) (r : Resultado) : Progreso :=
  { ultimo_n_verificado := r.rango.2,
    total_verificados := p.total_verificados + r.verificados,
    total_cumple := p.total_cumple + r.cumple,
    contraejemplos := p.contraejemplos ++ r.no_cumple }

/-- The parity correction applied to batch starts and to the resume point:
`if n % 2 != 0: n += 1`. -/
def corregirPar (n : Nat) : Nat := if n % 2 ≠ 0 then n + 1 else n

/-- One round of batch preparation (`for _ in range(num_cores): ...`):
returns the batches of the round together with the new `n_actual`. -/
def prepararRonda : Nat → Nat → Nat → Nat → List (Nat × Nat) × Nat
  | 0, nActual, _, _ => ([], nActual)
  | cores + 1, nActual, nFinal, tamanoBatch =>
      if nFinal < nActual then ([], nActual)
      else
        let finBatch := min (nActual + tamanoBatch - 1) nFinal
        let resto := prepararRonda cores (finBatch + 2) nFinal tamanoBatch
        ((nActual, finBatch) :: resto.1, resto.2)

/-- Consolidate every batch of a round, in `pool.map` order.  Each worker's
cache starts empty; by cache-insensitivity this loses no generality. -/
def procesarRonda (p : Progreso) (bs : List (Nat × Nat)) : Progreso :=
  bs.foldl (fun p b => consolidar p (verificar_goldbach_rango b.1 b.2 []).1) p

/-- The `while n_actual <= n_final` driver loop.  Produces, for every round,
the round's batches (as dispatched) and the `Progreso` value after that
round is consolidated — exactly the states passed to the periodic
`guardar_progreso` call sites.  Fuel `nFinal + 1 - nActual` suffices
because every non-empty round advances `n_actual`. -/
def bucleRondas : Nat → Nat → Nat → Nat → Nat → Progreso →
    List (List (Nat × Nat) × Progreso)
  | 0, _, _, _, _, _ => []
  | fuel + 1, nActual, nFinal, tamanoBatch, cores, p =>
      if nFinal < nActual then []
      else
        let ronda := prepararRonda cores nActual nFinal tamanoBatch
        if ronda.1.isEmpty then []
        else
          let p' := procesarRonda p ronda.1
          (ronda.1, p') :: bucleRondas fuel ronda.2 nFinal tamanoBatch cores p'

/-- `verificacion_masiva_goldbach`: resume after the loaded progress, return
the loaded record unchanged if the work is already done, otherwise run the
round loop.  Returns the final `Progreso` together with the full round
trace (dispatched batches and per-round progress states). -/
def verificacion_masiva_goldbach (progreso : Progreso)
    (nFinal tamanoBatch cores : Nat) :
    Progreso × List (List (Nat × Nat) × Progreso) :=
  let nInicio := corregirPar (progreso.ultimo_n_verificado + 2)
  if nFinal ≤ nInicio then (progreso, [])
  else
    let traza := bucleRondas (nFinal + 1 - nInicio) nInicio nFinal tamanoBatch cores progreso
    ((traza.map (fun rp => rp.2)).getLastD progreso, traza)

/-- All batches dispatched over a whole driver run. -/
def lotesDespachados (run : Progreso × List (List (Nat × Nat) × Progreso)) :
    List (Nat × Nat) :=
  (run.2.map (fun rp => rp.1)).flatten

/-- The progress states available to the periodic checkpoint saves
(one per consolidated round). -/
def estadosGuardado (run : Progreso × List (List (Nat × Nat) × Progreso)) :
    List Progreso :=
  run.2.map (fun rp => rp.2)

/-- The even numbers actually verified by one dispatched batch:
the loop of `verificar_goldbach_rango` runs over
`range(corrected_start, end + 1, 2)`. -/
def verificadosDeLote (b : Nat × Nat) : List Nat :=
  pyRange (corregirPar b.1) (b.2 + 1) 2

/-- A parsed checkpoint dictionary as seen by `cargar_progreso`: every
schema field may be absent.  `ultimo_n_verificado = none` also covers a
present value that the log line's `:,` format rejects (a non-number); the
wall-clock `inicio_sesion` field is not modelled. -/
structure DictProgreso where
  ultimo_n_verificado : Option Int
  total_verificados : Option Int
  total_cumple : Option Int
  contraejemplos : Option (List Int)
  tiempo_total : Option Int
deriving DecidableEq

/-- The three observable shapes of the checkpoint file when
`cargar_progreso` runs: the file does not exist, opening or
`json.load` raises, or parsing yields a dictionary. -/
inductive Archivo where
  | ausente : Archivo
  | ilegible : Archivo
  | contenido : DictProgreso → Archivo
deriving DecidableEq

/-- The default progress record built by `cargar_progreso` when it starts
fresh: `ultimo_n_verificado = n_inicial - 2`, zero totals, no
counterexamples. -/
def progresoPorDefecto (nInicial : Nat) : DictProgreso :=
  { ultimo_n_verificado := some ((nInicial : Int) - 2),
    total_verificados := some 0,
    total_cumple := some 0,
    contraejemplos := some [],
    tiempo_total := some 0 }

/-- `cargar_progreso`: if the file exists and `json.load` plus the log
line's access to `ultimo_n_verificado` succeed, the parsed dictionary is
returned as-is; any failure inside the `try` block falls through to the
default record. -/
def cargar_progreso (nInicial : Nat) (archivo : Archivo) : DictProgreso :=
  match archivo with
  | Archivo.contenido d =>
      match d.ultimo_n_verificado with
      | some _ => d
      | none => progresoPorDefecto nInicial
  | _ => progresoPorDefecto nInicial

/-- Structural validity of a checkpoint dictionary against the spec's
schema: every field present. -/
def esquemaValido (d : DictProgreso) : Prop :=
  d.ultimo_n_verificado.isSome ∧ d.total_verificados.isSome ∧
    d.total_cumple.isSome ∧ d.contraejemplos.isSome ∧ d.tiempo_total.isSome

instance (d : DictProgreso) : Decidable (esquemaValido d) := by
  unfold esquemaValido; infer_instance

/-- A cache state is coherent when every stored list is the sieve's output
for its key — the invariant `obtener_primos_hasta` maintains. -/
def cacheCorrecta (cache : CachePrimos) : Prop :=
  ∀ kv ∈ cache, kv.2 = criba_eratostenes_segmentada kv.1

instance (cache : CachePrimos) : Decidable (cacheCorrecta cache) := by
  unfold cacheCorrecta; infer_instance

/-- Trial-division helper: `true` iff no `e` with `d ≤ e` and `e * e ≤ n`
divides `n` (fuel-driven so that it evaluates in the kernel). -/
def sinDivisorAux : Nat → Nat → Nat → Bool
  | 0, _, _ => true
  | fuel + 1, n, d => if n < d * d then true else if n % d = 0 then false else sinDivisorAux fuel n (d + 1)

/-- Kernel-computable primality test, identified with `Nat.Prime` below. -/
def esPrimoB (n : Nat) : Bool :=
  decide (2 ≤ n) && sinDivisorAux n n 2

/-- The primes up to `l`, in ascending order — the reference value both
sieves are compared against. -/
def primosHasta (l : Nat) : List Nat :=
  (List.range (l + 1)).filter (fun k => esPrimoB k)

/-- Bounded Goldbach search: is some prime pair `p + (n - p)` with
`p ≤ n / 2` found for `n`? -/
def parGoldbach (n : Nat) : Bool :=
  (pyRange 2 (n / 2 + 1) 1).any (fun p => esPrimoB p && esPrimoB (n - p))

/-- Sieve-loop invariant: the array has length `n` and position `k` is
still `true` exactly when `2 ≤ k < n` and no already-processed strike
value `d < a` (with `2 ≤ d`, `d ∣ k`, `d * d ≤ k`) has hit `k`. -/
def BuenEstado (n a : Nat) (arr : List Bool) : Prop :=
  arr.length = n ∧
    ∀ k, arr.getD k false = true ↔
      2 ≤ k ∧ k < n ∧ ∀ d, 2 ≤ d → d < a → d ∣ k → ¬ d * d ≤ k

/-! ### Integer square root -/

theorem isqrtAux_le (n : Nat) : ∀ k, isqrtAux n k ≤ k
  | 0 => Nat.le_refl 0
  | k + 1 => by
      unfold isqrtAux
      split
      · exact Nat.le_refl _
      · exact Nat.le_trans (isqrtAux_le n k) (Nat.le_succ k)

theorem isqrtAux_sq_le (n : Nat) : ∀ k, isqrtAux n k * isqrtAux n k ≤ n
  | 0 => Nat.zero_le n
  | k + 1 => by
      unfold isqrtAux
      split
      · assumption
      · exact isqrtAux_sq_le n k

theorem le_isqrtAux (n : Nat) : ∀ k j, j ≤ k → j * j ≤ n → j ≤ isqrtAux n k
  | 0, j, hj, _ => by omega
  | k + 1, j, hj, hsq => by
      unfold isqrtAux
      split
      · exact hj
      · rename_i h
        have hne : j ≠ k + 1 := fun e => h (e ▸ hsq)
        exact le_isqrtAux n k j (by omega) hsq

theorem isqrt_eq_sqrt (n : Nat) : isqrt n = Nat.sqrt n := by
  apply Nat.le_antisymm
  · exact Nat.le_sqrt.mpr (isqrtAux_sq_le n n)
  · exact le_isqrtAux n n (Nat.sqrt n) (Nat.sqrt_le_self n) (Nat.sqrt_le n)

/-! ### Python ranges -/

theorem mem_pyRangeAux {s : Nat} (hs : 0 < s) :
    ∀ (fuel a b k : Nat), b - a ≤ fuel →
      (k ∈ pyRangeAux fuel a b s ↔ ∃ m, k = a + m * s ∧ k < b)
  | 0, a, b, k, h => by
      simp only [pyRangeAux, List.not_mem_nil, false_iff]
      rintro ⟨m, rfl, hlt⟩
      omega
  | fuel + 1, a, b, k, h => by
      unfold pyRangeAux
      split
      · rename_i hab
        simp only [List.mem_cons]
        rw [mem_pyRangeAux hs fuel (a + s) b k (by omega)]
        constructor
        · rintro (rfl | ⟨m, rfl, hlt⟩)
          · exact ⟨0, by omega, hab⟩
          · exact ⟨m + 1, by ring, hlt⟩
        · rintro ⟨m, rfl, hlt⟩
          match m with
          | 0 => left; omega
          | m + 1 => right; exact ⟨m, by ring, hlt⟩
      · rename_i hab
        simp only [List.not_mem_nil, false_iff]
        rintro ⟨m, rfl, hlt⟩
        omega

theorem mem_pyRange {a b s k : Nat} (hs : 0 < s) :
    k ∈ pyRange a b s ↔ ∃ m, k = a + m * s ∧ k < b :=
  mem_pyRangeAux hs (b - a) a b k (Nat.le_refl _)

theorem pyRangeAux_one : ∀ (fuel a b : Nat), b - a ≤ fuel →
    pyRangeAux fuel a b 1 = List.range' a (b - a)
  | 0, a, b, h => by
      have hba : b - a = 0 := by omega
      simp [pyRangeAux, hba]
  | fuel + 1, a, b, h => by
      unfold pyRangeAux
      split
      · rename_i hab
        rw [pyRangeAux_one fuel (a + 1) b (by omega)]
        have hba : b - a = (b - (a + 1)) + 1 := by omega
        rw [hba, List.range'_succ]
      · rename_i hab
        have hba : b - a = 0 := by omega
        simp [hba]

theorem pyRange_one (a b : Nat) : pyRange a b 1 = List.range' a (b - a) :=
  pyRangeAux_one (b - a) a b (Nat.le_refl _)

theorem pyRange_zero_one (n : Nat) : pyRange 0 n 1 = List.range n := by
  rw [pyRange_one, Nat.sub_zero, List.range_eq_range']

/-! ### Boolean array updates -/

theorem getD_set_iff (arr : List Bool) (j k : Nat) :
    ((arr.set j false).getD k false = true) ↔ (arr.getD k false = true ∧ k ≠ j) := by
  rcases eq_or_ne j k with rfl | hne
  · rw [List.getD_eq_getElem?_getD, List.getElem?_set]
    simp only [if_pos rfl]
    constructor
    · intro h
      by_cases hlt : j < arr.length <;> simp [hlt] at h
    · rintro ⟨_, h⟩
      exact absurd rfl h
  · rw [List.getD_eq_getElem?_getD, List.getElem?_set, if_neg hne,
      ← List.getD_eq_getElem?_getD]
    exact ⟨fun h => ⟨h, Ne.symm hne⟩, fun h => h.1⟩

theorem getD_marcar (js : List Nat) : ∀ (arr : List Bool) (k : Nat),
    ((marcar arr js).getD k false = true) ↔ (arr.getD k false = true ∧ k ∉ js) := by
  induction js with
  | nil => intro arr k; simp [marcar]
  | cons j js ih =>
      intro arr k
      have hstep : marcar arr (j :: js) = marcar (arr.set j false) js := rfl
      rw [hstep, ih, getD_set_iff]
      simp only [List.mem_cons]
      tauto

theorem length_marcar (js : List Nat) : ∀ arr : List Bool,
    (marcar arr js).length = arr.length := by
  induction js with
  | nil => intro arr; rfl
  | cons j js ih =>
      intro arr
      have hstep : marcar arr (j :: js) = marcar (arr.set j false) js := rfl
      rw [hstep, ih, List.length_set]

theorem length_arrInicial (n : Nat) : (arrInicial n).length = n := by
  simp [arrInicial]

theorem getD_arrInicial (n k : Nat) :
    ((arrInicial n).getD k false = true) ↔ (2 ≤ k ∧ k < n) := by
  unfold arrInicial
  rw [getD_set_iff, getD_set_iff]
  have hrep : ((List.replicate n true).getD k false = true) ↔ k < n := by
    rw [List.getD_eq_getElem?_getD, List.getElem?_replicate]
    by_cases h : k < n <;> simp [h]
  rw [hrep]
  omega

/-! ### Base sieve correctness -/

theorem buenEstado_inicial (n : Nat) : BuenEstado n 2 (arrInicial n) := by
  refine ⟨length_arrInicial n, fun k => ?_⟩
  rw [getD_arrInicial]
  constructor
  · rintro ⟨h2, hn⟩
    exact ⟨h2, hn, fun d hd hlt => absurd hlt (by omega)⟩
  · rintro ⟨h2, hn, _⟩
    exact ⟨h2, hn⟩

theorem buenEstado_paso {n a : Nat} {arr : List Bool} (ha : 2 ≤ a)
    (h : BuenEstado n a arr) :
    BuenEstado n (a + 1)
      (if arr.getD a false then marcar arr (pyRange (a * a) n a) else arr) := by
  obtain ⟨hlen, hchar⟩ := h
  cases htest : arr.getD a false with
  | true =>
      simp only [if_true]
      refine ⟨(length_marcar _ _).trans hlen, fun k => ?_⟩
      rw [getD_marcar, hchar]
      have hmem : k ∈ pyRange (a * a) n a ↔ a ∣ k ∧ a * a ≤ k ∧ k < n := by
        rw [mem_pyRange (by omega : 0 < a)]
        constructor
        · rintro ⟨m, rfl, hlt⟩
          exact ⟨⟨a + m, by ring⟩, Nat.le_add_right _ _, hlt⟩
        · rintro ⟨⟨q, rfl⟩, hsq, hlt⟩
          have hq : a ≤ q := Nat.le_of_mul_le_mul_left hsq (by omega)
          obtain ⟨t, rfl⟩ := Nat.exists_eq_add_of_le hq
          exact ⟨t, by ring, hlt⟩
      rw [hmem]
      constructor
      · rintro ⟨⟨h2, hn, hdiv⟩, hnot⟩
        refine ⟨h2, hn, fun d hd2 hda hdk hsq => ?_⟩
        rcases Nat.lt_or_ge d a with hlt | hge
        · exact hdiv d hd2 hlt hdk hsq
        · have hda' : d = a := by omega
          subst hda'
          exact hnot ⟨hdk, hsq, hn⟩
      · rintro ⟨h2, hn, hdiv⟩
        refine ⟨⟨h2, hn, fun d hd2 hda hdk hsq => hdiv d hd2 (by omega) hdk hsq⟩, ?_⟩
        rintro ⟨hdk, hsq, -⟩
        exact hdiv a ha (by omega) hdk hsq
  | false =>
      rw [if_neg Bool.false_ne_true]
      refine ⟨hlen, fun k => ?_⟩
      rw [hchar]
      constructor
      · rintro ⟨h2, hn, hdiv⟩
        refine ⟨h2, hn, fun d hd2 hda hdk hsq => ?_⟩
        rcases Nat.lt_or_ge d a with hlt | hge
        · exact hdiv d hd2 hlt hdk hsq
        · have hda' : d = a := by omega
          subst hda'
          have hnotC : ¬ (2 ≤ d ∧ d < n ∧ ∀ e, 2 ≤ e → e < d → e ∣ d → ¬ e * e ≤ d) := by
            intro hc
            rw [← hchar d] at hc
            rw [htest] at hc
            exact Bool.false_ne_true hc
          by_cases hdn : d < n
          · have hex : ∃ e, 2 ≤ e ∧ e < d ∧ e ∣ d ∧ e * e ≤ d := by
              by_contra hno
              push_neg at hno
              exact hnotC ⟨ha, hdn, fun e he2 hed hedvd => by have := hno e he2 hed hedvd; omega⟩
            obtain ⟨e, he2, hed, hedvd, hesq⟩ := hex
            have hek : e ∣ k := hedvd.trans hdk
            have hesqk : e * e ≤ k := by
              have hdd : d ≤ d * d := Nat.le_mul_of_pos_left d (by omega)
              omega
            exact hdiv e he2 (by omega) hek hesqk
          · have hdd : d ≤ d * d := Nat.le_mul_of_pos_left d (by omega)
            omega
      · rintro ⟨h2, hn, hdiv⟩
        exact ⟨h2, hn, fun d hd2 hda hdk hsq => hdiv d hd2 (by omega) hdk hsq⟩

theorem buenEstado_bucle : ∀ (fuel a b n : Nat) (arr : List Bool), 2 ≤ a → b - a ≤ fuel →
    BuenEstado n a arr → BuenEstado n (max a b) (cribaLoop n arr (pyRangeAux fuel a b 1))
  | 0, a, b, n, arr, ha, hf, h => by
      have hba : b ≤ a := by omega
      simpa [pyRangeAux, cribaLoop, Nat.max_eq_left hba] using h
  | fuel + 1, a, b, n, arr, ha, hf, h => by
      unfold pyRangeAux
      split
      · rename_i hab
        simp only [cribaLoop]
        have step := buenEstado_paso ha h
        have hrec := buenEstado_bucle fuel (a + 1) b n _ (by omega) (by omega) step
        rw [Nat.max_eq_right (by omega : a + 1 ≤ b)] at hrec
        rwa [Nat.max_eq_right (by omega : a ≤ b)]
      · rename_i hab
        simp only [cribaLoop]
        rwa [Nat.max_eq_left (by omega : b ≤ a)]

theorem cribaBase_buenEstado (n b : Nat) (hb : 1 ≤ b) :
    BuenEstado n (b + 1) (cribaBase n b) := by
  have h := buenEstado_bucle (b + 1 - 2) 2 (b + 1) n (arrInicial n) (Nat.le_refl 2)
    (Nat.le_refl _) (buenEstado_inicial n)
  rw [Nat.max_eq_right (by omega : 2 ≤ b + 1)] at h
  exact h

theorem prime_iff_sin_divisor (k : Nat) :
    Nat.Prime k ↔ 2 ≤ k ∧ ∀ d, 2 ≤ d → d * d ≤ k → ¬ d ∣ k := by
  constructor
  · intro hp
    refine ⟨hp.two_le, fun d hd2 hsq hdvd => ?_⟩
    rcases (Nat.Prime.eq_one_or_self_of_dvd hp d hdvd) with rfl | rfl
    · omega
    · have h2k : 2 * d ≤ d * d := Nat.mul_le_mul_right d hd2
      omega
  · rintro ⟨h2, hnd⟩
    by_contra hnp
    have hmf := Nat.minFac_dvd k
    have hmfp := Nat.minFac_prime (by omega : k ≠ 1)
    have hsq : k.minFac ^ 2 ≤ k := Nat.minFac_sq_le_self (by omega) hnp
    rw [pow_two] at hsq
    exact hnd k.minFac hmfp.two_le hsq hmf

theorem getD_cribaBase {n b k : Nat} (hb : 1 ≤ b) (hsq : Nat.sqrt (n - 1) ≤ b) :
    ((cribaBase n b).getD k false = true) ↔ (k < n ∧ Nat.Prime k) := by
  obtain ⟨hlen, hchar⟩ := cribaBase_buenEstado n b hb
  rw [hchar k, prime_iff_sin_divisor]
  constructor
  · rintro ⟨h2, hn, hd⟩
    refine ⟨hn, h2, fun d hd2 hdsq hdvd => ?_⟩
    have hdb : d ≤ b := by
      have h1 : d ≤ Nat.sqrt k := Nat.le_sqrt.mpr hdsq
      have h2' : Nat.sqrt k ≤ Nat.sqrt (n - 1) := Nat.sqrt_le_sqrt (by omega)
      omega
    exact hd d hd2 (by omega) hdvd hdsq
  · rintro ⟨hn, h2, hnd⟩
    exact ⟨h2, hn, fun d hd2 hdb hdvd hdsq => hnd d hd2 hdsq hdvd⟩

/-! ### The executable primality test -/

theorem sinDivisorAux_iff : ∀ (fuel n d : Nat), 2 ≤ d → Nat.sqrt n + 2 ≤ d + fuel →
    (sinDivisorAux fuel n d = true ↔ ∀ e, d ≤ e → e * e ≤ n → ¬ e ∣ n)
  | 0, n, d, hd, hf => by
      simp only [sinDivisorAux, true_iff]
      intro e hde hsq hdvd
      have : e ≤ Nat.sqrt n := Nat.le_sqrt.mpr hsq
      omega
  | fuel + 1, n, d, hd, hf => by
      unfold sinDivisorAux
      split
      · rename_i hlt
        simp only [true_iff]
        intro e hde hsq hdvd
        have hee : d * d ≤ e * e := Nat.mul_le_mul hde hde
        omega
      · split
        · rename_i hge hmod
          simp only [Bool.false_eq_true, false_iff]
          push_neg
          exact ⟨d, Nat.le_refl d, by omega, Nat.dvd_of_mod_eq_zero hmod⟩
        · rename_i hge hmod
          rw [sinDivisorAux_iff fuel n (d + 1) (by omega) (by omega)]
          constructor
          · intro h e hde hsq hdvd
            rcases Nat.eq_or_lt_of_le hde with rfl | hlt
            · exact hmod (Nat.eq_zero_of_dvd_of_lt hdvd (by omega) |> absurd <| by omega)
            · exact h e (by omega) hsq hdvd
          · intro h e hde hsq hdvd
            exact h e (by omega) hsq hdvd

theorem esPrimoB_iff (n : Nat) : esPrimoB n = true ↔ Nat.Prime n := by
  have hs := sinDivisorAux_iff n n 2 (Nat.le_refl 2)
    (by have := Nat.sqrt_le_self n; omega)
  rw [esPrimoB, Bool.and_eq_true, decide_eq_true_iff, hs, prime_iff_sin_divisor]

theorem sobrevivientes_cribaBase {n b : Nat} (hb : 1 ≤ b) (hsq : Nat.sqrt (n - 1) ≤ b) :
    sobrevivientes (cribaBase n b) = (List.range n).filter (fun k => esPrimoB k) := by
  unfold sobrevivientes
  rw [(cribaBase_buenEstado n b hb).1, pyRange_zero_one]
  apply List.filter_congr
  intro k hk
  rw [List.mem_range] at hk
  rw [Bool.eq_iff_iff, getD_cribaBase hb hsq, esPrimoB_iff]
  exact ⟨fun h => h.2, fun h => ⟨hk, h⟩⟩

theorem criba_simple_eq (l : Nat) : criba_eratostenes_simple l = primosHasta l := by
  unfold criba_eratostenes_simple primosHasta
  split
  · rename_i hl
    interval_cases l <;> decide
  · rename_i hl
    rw [isqrt_eq_sqrt]
    have h1 : 1 ≤ Nat.sqrt l := Nat.le_sqrt.mpr (by omega)
    have h2 : Nat.sqrt (l + 1 - 1) ≤ Nat.sqrt l := by
      rw [Nat.add_sub_cancel]
    exact sobrevivientes_cribaBase h1 h2

/-! ### Segment correctness -/

theorem primerMultiplo_spec {inicio p : Nat} (hp : 0 < p) (hlt : p < inicio) :
    inicio ≤ primerMultiplo inicio p ∧ primerMultiplo inicio p < inicio + p ∧
      p ∣ primerMultiplo inicio p := by
  have hdm : (inicio + p - 1) / p * p + (inicio + p - 1) % p = inicio + p - 1 :=
    Nat.div_add_mod' _ _
  have hr : (inicio + p - 1) % p < p := Nat.mod_lt _ hp
  have hdvd : p ∣ (inicio + p - 1) / p * p := dvd_mul_left p _
  simp only [primerMultiplo]
  rw [if_neg (Nat.not_lt.mpr (by omega)), if_neg (by omega)]
  exact ⟨by omega, by omega, hdvd⟩

theorem mem_golpes {inicio fin p i : Nat} (hp : 0 < p) (hlt : p < inicio) :
    (i ∈ (pyRange (primerMultiplo inicio p) fin p).map (fun j => j - inicio)) ↔
      (p ∣ (inicio + i) ∧ inicio + i < fin) := by
  obtain ⟨hge, hub, hdvd⟩ := primerMultiplo_spec hp hlt
  rw [List.mem_map]
  constructor
  · rintro ⟨j, hj, rfl⟩
    rw [mem_pyRange hp] at hj
    obtain ⟨m, rfl, hjfin⟩ := hj
    have hji : inicio + (primerMultiplo inicio p + m * p - inicio) =
        primerMultiplo inicio p + m * p := by omega
    rw [hji]
    exact ⟨Dvd.dvd.add hdvd (dvd_mul_left p m), hjfin⟩
  · rintro ⟨hdvdj, hfin⟩
    refine ⟨inicio + i, ?_, by omega⟩
    rw [mem_pyRange hp]
    have hgepm : primerMultiplo inicio p ≤ inicio + i := by
      by_contra hc
      push_neg at hc
      have hpos : 0 < primerMultiplo inicio p - (inicio + i) := by omega
      have hd2 : p ∣ primerMultiplo inicio p - (inicio + i) := Nat.dvd_sub' hdvd hdvdj
      have := Nat.le_of_dvd hpos hd2
      omega
    have hdsub : p ∣ (inicio + i - primerMultiplo inicio p) := Nat.dvd_sub' hdvdj hdvd
    obtain ⟨m, hm⟩ := hdsub
    rw [Nat.mul_comm] at hm
    exact ⟨m, by omega, hfin⟩

theorem getD_segFoldAux (inicio fin : Nat) : ∀ (pp : List Nat) (seg : List Bool) (i : Nat),
    (∀ p ∈ pp, 0 < p ∧ p < inicio) →
    (((pp.foldl (fun seg p => (pyRange (primerMultiplo inicio p) fin p).foldl
        (fun a j => a.set (j - inicio) false) seg) seg).getD i false = true) ↔
      (seg.getD i false = true ∧ ∀ p ∈ pp, ¬ (p ∣ (inicio + i) ∧ inicio + i < fin)))
  | [], seg, i, h => by simp
  | p :: pp, seg, i, h => by
      simp only [List.foldl_cons]
      rw [getD_segFoldAux inicio fin pp _ i (fun q hq => h q (List.mem_cons_of_mem p hq))]
      have hinner : (pyRange (primerMultiplo inicio p) fin p).foldl
          (fun a j => a.set (j - inicio) false) seg =
          marcar seg ((pyRange (primerMultiplo inicio p) fin p).map (fun j => j - inicio)) := by
        rw [marcar, List.foldl_map]
      rw [hinner, getD_marcar]
      obtain ⟨hp0, hpi⟩ := h p (List.mem_cons_self p pp)
      constructor
      · rintro ⟨⟨hseg, hnot⟩, hrest⟩
        refine ⟨hseg, fun q hq => ?_⟩
        rcases List.mem_cons.mp hq with rfl | hq'
        · exact fun hc => hnot ((mem_golpes hp0 hpi).mpr hc)
        · exact hrest q hq'
      · rintro ⟨hseg, hall⟩
        exact ⟨⟨hseg, fun hmem => hall p (List.mem_cons_self p pp)
            ((mem_golpes hp0 hpi).mp hmem)⟩,
          fun q hq => hall q (List.mem_cons_of_mem p hq)⟩

theorem getD_cribarSegmento {inicio fin : Nat} (pp : List Nat)
    (hpp : ∀ p ∈ pp, 0 < p ∧ p < inicio) (i : Nat) :
    ((cribarSegmento inicio fin pp).getD i false = true) ↔
      (i < fin - inicio ∧ ∀ p ∈ pp, ¬ p ∣ (inicio + i)) := by
  unfold cribarSegmento
  rw [getD_segFoldAux inicio fin pp _ i hpp]
  have hrep : ((List.replicate (fin - inicio) true).getD i false = true) ↔
      i < fin - inicio := by
    rw [List.getD_eq_getElem?_getD, List.getElem?_replicate]
    by_cases h : i < fin - inicio <;> simp [h]
  rw [hrep]
  constructor
  · rintro ⟨hlt, hall⟩
    exact ⟨hlt, fun p hp hdvd => hall p hp ⟨hdvd, by omega⟩⟩
  · rintro ⟨hlt, hall⟩
    exact ⟨hlt, fun p hp hc => hall p hp hc.1⟩

theorem segmento_eq (inicio fin : Nat) (pp : List Nat)
    (hpp : ∀ p ∈ pp, 0 < p ∧ p < inicio)
    (hprim : ∀ m, inicio ≤ m → m < fin → (Nat.Prime m ↔ ∀ p ∈ pp, ¬ p ∣ m)) :
    (((pyRange 0 (fin - inicio) 1).filter
        (fun i => (cribarSegmento inicio fin pp).getD i false)).map (fun i => inicio + i)) =
      (List.range' inicio (fin - inicio)).filter (fun k => esPrimoB k) := by
  rw [pyRange_zero_one, List.range'_eq_map_range, List.filter_map]
  congr 1
  apply List.filter_congr
  intro i hi
  rw [List.mem_range] at hi
  rw [Bool.eq_iff_iff, getD_cribarSegmento pp hpp i, Function.comp_apply, esPrimoB_iff,
    hprim (inicio + i) (Nat.le_add_right _ _) (by omega)]
  constructor
  · rintro ⟨-, h⟩
    exact h
  · intro h
    exact ⟨hi, h⟩

theorem segmentos_eq (limite t lo : Nat) (pp : List Nat) (ht : 0 < t)
    (hpp : ∀ p ∈ pp, 0 < p ∧ p < lo)
    (hprim : ∀ m, lo ≤ m → m ≤ limite → (Nat.Prime m ↔ ∀ p ∈ pp, ¬ p ∣ m)) :
    ∀ (fuel a : Nat), limite + 1 - a ≤ fuel → lo ≤ a →
      ((pyRangeAux fuel a (limite + 1) t).flatMap (fun inicio =>
          let fin := min (inicio + t) (limite + 1)
          let seg := cribarSegmento inicio fin pp
          ((pyRange 0 (fin - inicio) 1).filter (fun i => seg.getD i false)).map
            (fun i => inicio + i))) =
        (List.range' a (limite + 1 - a)).filter (fun k => esPrimoB k)
  | 0, a, hf, ha => by
      have hba : limite + 1 - a = 0 := by omega
      simp [pyRangeAux, hba]
  | fuel + 1, a, hf, ha => by
      unfold pyRangeAux
      split
      · rename_i hab
        rw [List.flatMap_cons]
        rw [segmentos_eq limite t lo pp ht hpp hprim fuel (a + t) (by omega) (by omega)]
        have hseg := segmento_eq a (min (a + t) (limite + 1)) pp
          (fun p hp => ⟨(hpp p hp).1, by have := (hpp p hp).2; omega⟩)
          (fun m hm hmf => hprim m (by omega) (by omega))
        simp only at hseg ⊢
        rw [hseg]
        rcases Nat.le_total (a + t) (limite + 1) with hc | hc
        · have hmin : min (a + t) (limite + 1) = a + t := Nat.min_eq_left hc
          rw [hmin]
          have h1 : a + t - a = t := by omega
          rw [h1, ← List.filter_append, List.range'_append_1]
          have h2 : limite + 1 - (a + t) + t = limite + 1 - a := by omega
          rw [h2]
        · have hmin : min (a + t) (limite + 1) = limite + 1 := Nat.min_eq_right hc
          rw [hmin]
          have h3 : limite + 1 - (a + t) = 0 := by omega
          rw [h3, List.range'_zero, List.filter_nil, List.append_nil]
      · rename_i hab
        have hba : limite + 1 - a = 0 := by omega
        simp [hba]

theorem criba_seg_eq {l : Nat} (hl : l ≠ 2) :
    criba_eratostenes_segmentada l = primosHasta l := by
  simp only [criba_eratostenes_segmentada]
  split
  · rename_i h2
    interval_cases l <;> decide
  · rename_i h2
    push_neg at h2
    have hl3 : 3 ≤ l := by omega
    rw [isqrt_eq_sqrt]
    split
    · rename_i hle
      exfalso
      have hs := Nat.sqrt_le l
      have h1 : l - 1 ≤ Nat.sqrt l := by omega
      have hmul : (l - 1) * (l - 1) ≤ Nat.sqrt l * Nat.sqrt l := Nat.mul_le_mul h1 h1
      have h2k : 2 * (l - 1) ≤ (l - 1) * (l - 1) :=
        Nat.mul_le_mul_right (l - 1) (by omega)
      omega
    · rename_i hgt
      push_neg at hgt
      set S := Nat.sqrt l + 1 with hS
      have hS2 : 2 ≤ S := by
        have : 1 ≤ Nat.sqrt l := Nat.le_sqrt.mpr (by omega)
        omega
      have hb1 : 1 ≤ isqrt S := by
        rw [isqrt_eq_sqrt]
        exact Nat.le_sqrt.mpr (by omega)
      have hppEq : sobrevivientes (cribaBase S (isqrt S)) =
          (List.range S).filter (fun k => esPrimoB k) := by
        rw [isqrt_eq_sqrt]
        refine sobrevivientes_cribaBase ?_ (Nat.sqrt_le_sqrt (by omega))
        exact Nat.le_sqrt.mpr (by omega)
      rw [hppEq]
      have hpp : ∀ p ∈ (List.range S).filter (fun k => esPrimoB k), 0 < p ∧ p < S := by
        intro p hp
        rw [List.mem_filter, List.mem_range] at hp
        have := (esPrimoB_iff p).mp hp.2
        exact ⟨this.pos, hp.1⟩
      have hprim : ∀ m, S ≤ m → m ≤ l →
          (Nat.Prime m ↔ ∀ p ∈ (List.range S).filter (fun k => esPrimoB k), ¬ p ∣ m) := by
        intro m hSm hml
        constructor
        · intro hm p hp hdvd
          rw [List.mem_filter, List.mem_range] at hp
          have hpprime := (esPrimoB_iff p).mp hp.2
          rcases (Nat.Prime.eq_one_or_self_of_dvd hm p hdvd) with rfl | rfl
          · exact Nat.not_prime_one hpprime
          · omega
        · intro hnd
          by_contra hnp
          have hm2 : 2 ≤ m := by omega
          have hq := Nat.minFac_prime (by omega : m ≠ 1)
          have hqd := Nat.minFac_dvd m
          have hqsq : m.minFac ^ 2 ≤ m := Nat.minFac_sq_le_self (by omega) hnp
          rw [pow_two] at hqsq
          have hqle : m.minFac ≤ Nat.sqrt l :=
        le_trans (Nat.le_sqrt.mpr hqsq) (Nat.sqrt_le_sqrt hml)
          refine hnd m.minFac ?_ hqd
          rw [List.mem_filter, List.mem_range]
          exact ⟨by omega, (esPrimoB_iff _).mpr hq⟩
      have hmain := segmentos_eq l (min S 1000000) S
        ((List.range S).filter (fun k => esPrimoB k))
        (by omega) hpp hprim (l + 1 - S) S (Nat.le_refl _) (Nat.le_refl _)
      have hpy : pyRange S (l + 1) (min S 1000000) = pyRangeAux (l + 1 - S) S (l + 1) (min S 1000000) := rfl
      rw [hpy, hmain]
      unfold primosHasta
      rw [List.range_eq_range', ← List.filter_append]
      have happ : List.range' 0 S ++ List.range' S (l + 1 - S) = List.range' 0 (l + 1) := by
        have h := List.range'_append_1 0 S (l + 1 - S)
        rw [Nat.zero_add] at h
        rw [h]
        congr 1
        omega
      rw [happ, ← List.range_eq_range']

/-! ### The reference prime list -/

theorem mem_primosHasta {l k : Nat} : k ∈ primosHasta l ↔ k ≤ l ∧ Nat.Prime k := by
  unfold primosHasta
  rw [List.mem_filter, List.mem_range, esPrimoB_iff]
  exact ⟨fun h => ⟨by omega, h.2⟩, fun h => ⟨by omega, h.2⟩⟩

theorem pairwise_primosHasta (l : Nat) : (primosHasta l).Pairwise (· < ·) :=
  (List.pairwise_lt_range (l + 1)).sublist (List.filter_sublist _)

/-! ### The batch verifier -/

theorem mem_takeWhile_le : ∀ (l : List Nat), l.Pairwise (· < ·) → ∀ a c, a ∈ l → a ≤ c →
    a ∈ l.takeWhile (fun p => decide (p ≤ c))
  | [], _, a, _, h, _ => absurd h (List.not_mem_nil a)
  | x :: xs, hp, a, c, hmem, hle => by
      rcases List.mem_cons.mp hmem with rfl | hmem'
      · rw [List.takeWhile_cons_of_pos (by simpa using hle)]
        exact List.mem_cons_self _ _
      · have hxa : x < a := (List.pairwise_cons.mp hp).1 a hmem'
        rw [List.takeWhile_cons_of_pos (by simp; omega)]
        exact List.mem_cons_of_mem _
          (mem_takeWhile_le xs (List.pairwise_cons.mp hp).2 a c hmem' hle)

theorem representacionesDe_pos {primos : List Nat} {n p : Nat}
    (hsort : primos.Pairwise (· < ·))
    (hp : p ∈ primos) (hple : p ≤ n / 2) (hq : n - p ∈ primos) :
    0 < representacionesDe primos n := by
  unfold representacionesDe
  rw [List.countP_pos_iff]
  exact ⟨p, mem_takeWhile_le primos hsort p (n / 2) hp hple, List.elem_iff.mpr hq⟩

theorem foldl_procesarN_rango (primos : List Nat) :
    ∀ (l : List Nat) (r : Resultado), (l.foldl (procesarN primos) r).rango = r.rango
  | [], r => rfl
  | n :: l, r => by
      rw [List.foldl_cons, foldl_procesarN_rango primos l]
      simp only [procesarN]
      split <;> rfl

theorem foldl_procesarN_verificados (primos : List Nat) :
    ∀ (l : List Nat) (r : Resultado),
      (l.foldl (procesarN primos) r).verificados = r.verificados + l.length
  | [], r => by simp
  | n :: l, r => by
      rw [List.foldl_cons, foldl_procesarN_verificados primos l]
      simp only [procesarN]
      split <;> (simp only [List.length_cons]; omega)

theorem foldl_procesarN_no_cumple (primos : List Nat) :
    ∀ (l : List Nat) (r : Resultado),
      (l.foldl (procesarN primos) r).no_cumple =
        r.no_cumple ++ l.filter (fun n => decide (representacionesDe primos n = 0))
  | [], r => by simp
  | n :: l, r => by
      rw [List.foldl_cons, foldl_procesarN_no_cumple primos l, List.filter_cons]
      simp only [procesarN]
      by_cases h : 0 < representacionesDe primos n
      · rw [if_pos h, if_neg (by simpa using Nat.pos_iff_ne_zero.mp h)]
      · rw [if_neg h, if_pos (by simpa using Nat.eq_zero_of_not_pos h)]
        simp

theorem foldl_procesarN_cumple (primos : List Nat) :
    ∀ (l : List Nat) (r : Resultado), (∀ n ∈ l, 0 < representacionesDe primos n) →
      (l.foldl (procesarN primos) r).cumple = r.cumple + l.length
  | [], r, _ => by simp
  | n :: l, r, h => by
      rw [List.foldl_cons, foldl_procesarN_cumple primos l _
        (fun m hm => h m (List.mem_cons_of_mem n hm))]
      simp only [procesarN]
      rw [if_pos (h n (List.mem_cons_self n l))]
      simp only [List.length_cons]
      omega

set_option maxRecDepth 10000 in
theorem parGoldbach_todos : (pyRange 6 2001 2).all (fun n => parGoldbach n) = true := by
  decide

theorem goldbach_hasta {n : Nat} (h6 : 6 ≤ n) (h2000 : n ≤ 2000) (hpar : n % 2 = 0) :
    ∃ p, 2 ≤ p ∧ p ≤ n / 2 ∧ Nat.Prime p ∧ Nat.Prime (n - p) := by
  have hmem : n ∈ pyRange 6 2001 2 := by
    rw [mem_pyRange (by omega : (0 : Nat) < 2)]
    exact ⟨(n - 6) / 2, by omega, by omega⟩
  have hall := List.all_eq_true.mp parGoldbach_todos n hmem
  rw [parGoldbach, List.any_eq_true] at hall
  obtain ⟨p, hp, hfound⟩ := hall
  rw [Bool.and_eq_true, esPrimoB_iff, esPrimoB_iff] at hfound
  rw [mem_pyRange (by omega : (0 : Nat) < 1)] at hp
  obtain ⟨m, rfl, hplt⟩ := hp
  exact ⟨2 + m * 1, by omega, by omega, hfound.1, hfound.2⟩

theorem verificar_eq (s e : Nat) (hpar : s % 2 = 0) :
    verificar_goldbach_rango s e [] =
      ((pyRange s (e + 1) 2).foldl (procesarN (criba_eratostenes_segmentada e))
        ⟨(s, e), 0, 0, [], ⊤, 0⟩, [(e, criba_eratostenes_segmentada e)]) := by
  simp only [verificar_goldbach_rango, obtener_primos_hasta, List.find?_nil,
    List.nil_append]
  rw [if_neg (by omega : ¬ s % 2 ≠ 0)]

theorem reps_pos_en_rango {s e n : Nat} (h6 : 6 ≤ s) (hpar : s % 2 = 0) (he : e ≤ 2000)
    (hmem : n ∈ pyRange s (e + 1) 2) :
    0 < representacionesDe (criba_eratostenes_segmentada e) n := by
  rw [mem_pyRange (by omega : (0 : Nat) < 2)] at hmem
  obtain ⟨m, rfl, hlt⟩ := hmem
  have hne : e ≠ 2 := by omega
  rw [criba_seg_eq hne]
  obtain ⟨p, hp2, hple, hpp, hqp⟩ :=
    goldbach_hasta (n := s + m * 2) (by omega) (by omega) (by omega)
  refine representacionesDe_pos (pairwise_primosHasta e) ?_ hple ?_
  · rw [mem_primosHasta]
    exact ⟨by omega, hpp⟩
  · rw [mem_primosHasta]
    exact ⟨by omega, hqp⟩

/-- C4: for every even-start batch `[s, e]` inside `[6, 2000]` with the
prime set covering all primes up to the batch end `e`, the batch verifier
reports an empty counterexample list, every number verified satisfies
Goldbach, and every even `n` of the batch has at least one prime-pair
representation; in particular `n = 6` yields exactly one representation,
through the pair `(3, 3)`, and `n = 10` yields exactly two, through
`(3, 7)` and `(5, 5)`. -/
theorem C4_goldbach_en_rango (s e : Nat) (h6 : 6 ≤ s) (hpar : s % 2 = 0)
    (he : e ≤ 2000) :
    ((verificar_goldbach_rango s e []).1.no_cumple = [] ∧
      (verificar_goldbach_rango s e []).1.cumple =
        (verificar_goldbach_rango s e []).1.verificados) ∧
    (∀ n, s ≤ n → n ≤ e → n % 2 = 0 →
      1 ≤ representacionesDe (criba_eratostenes_segmentada e) n) ∧
    (representacionesDe (criba_eratostenes_segmentada 6) 6 = 1 ∧
      ((criba_eratostenes_segmentada 6).takeWhile (fun p => decide (p ≤ 6 / 2))).filter
        (fun p => (criba_eratostenes_segmentada 6).contains (6 - p)) = [3]) ∧
    (representacionesDe (criba_eratostenes_segmentada 10) 10 = 2 ∧
      ((criba_eratostenes_segmentada 10).takeWhile (fun p => decide (p ≤ 10 / 2))).filter
        (fun p => (criba_eratostenes_segmentada 10).contains (10 - p)) = [3, 5]) := by
  refine ⟨?_, ?_, by decide, by decide⟩
  · rw [verificar_eq s e hpar]
    constructor
    · show ((pyRange s (e + 1) 2).foldl (procesarN (criba_eratostenes_segmentada e))
        ⟨(s, e), 0, 0, [], ⊤, 0⟩).no_cumple = []
      rw [foldl_procesarN_no_cumple]
      rw [List.nil_append, List.filter_eq_nil_iff]
      intro n hn
      have hpos := reps_pos_en_rango h6 hpar he hn
      simp only [decide_eq_true_eq]
      omega
    · show ((pyRange s (e + 1) 2).foldl (procesarN (criba_eratostenes_segmentada e))
          ⟨(s, e), 0, 0, [], ⊤, 0⟩).cumple =
        ((pyRange s (e + 1) 2).foldl (procesarN (criba_eratostenes_segmentada e))
          ⟨(s, e), 0, 0, [], ⊤, 0⟩).verificados
      rw [foldl_procesarN_cumple _ _ _ (fun n hn => reps_pos_en_rango h6 hpar he hn),
        foldl_procesarN_verificados]
  · intro n hs hn hp
    have hmem : n ∈ pyRange s (e + 1) 2 := by
      rw [mem_pyRange (by omega : (0 : Nat) < 2)]
      exact ⟨(n - s) / 2, by omega, by omega⟩
    exact reps_pos_en_rango h6 hpar he hmem

/-- Witness for C4 at the concrete batch `[6, 6]`. -/
theorem C4_goldbach_en_rango_witness :
    6 ≤ 6 ∧ 6 % 2 = 0 ∧ (6 : Nat) ≤ 2000 ∧
      (verificar_goldbach_rango 6 6 []).1.no_cumple = [] ∧
      1 ≤ representacionesDe (criba_eratostenes_segmentada 6) 6 :=
  ⟨by decide, by decide, by decide,
    ((C4_goldbach_en_rango 6 6 (by decide) (by decide) (by decide)).1).1,
    ((C4_goldbach_en_rango 6 6 (by decide) (by decide) (by decide)).2).1 6
      (by decide) (by decide) (by decide)⟩

/-! ### Helper lemmas about the driver -/

theorem corregirPar_par (n : Nat) : corregirPar n % 2 = 0 := by
  unfold corregirPar
  split <;> omega

theorem corregirPar_de_par {n : Nat} (h : n % 2 = 0) : corregirPar n = n := by
  unfold corregirPar
  rw [if_neg (by omega)]

theorem pyRange_head {a b s : Nat} (h : a < b) : (pyRange a b s).head? = some a := by
  unfold pyRange
  have hba : b - a = (b - a - 1) + 1 := by omega
  rw [hba]
  unfold pyRangeAux
  rw [if_pos h]
  rfl

theorem prepararRonda_succ (c nActual nFinal B : Nat) (h : nActual ≤ nFinal) :
    prepararRonda (c + 1) nActual nFinal B =
      ((nActual, min (nActual + B - 1) nFinal) ::
        (prepararRonda c (min (nActual + B - 1) nFinal + 2) nFinal B).1,
       (prepararRonda c (min (nActual + B - 1) nFinal + 2) nFinal B).2) := by
  simp only [prepararRonda]
  rw [if_neg (Nat.not_lt.mpr h)]

theorem bucleRondas_head (f nActual nFinal B cores : Nat) (hc : 1 ≤ cores)
    (hlt : nActual ≤ nFinal) (p : Progreso) :
    (((bucleRondas (f + 1) nActual nFinal B cores p).map (fun rp => rp.1)).flatten).head? =
      some (nActual, min (nActual + B - 1) nFinal) := by
  obtain ⟨c, rfl⟩ : ∃ c, cores = c + 1 := ⟨cores - 1, by omega⟩
  simp only [bucleRondas]
  rw [if_neg (Nat.not_lt.mpr hlt), prepararRonda_succ c nActual nFinal B hlt]
  simp

/-! ### The claims -/

/-- C1 (refuted; code bug): in the run starting from the default progress
for `n_inicial = 6` with `n_final = 30`, `tamaño_batch = 10` and one
worker, the driver dispatches the batches `(6,15), (17,26), (28,30)`.
Their union misses the even number 16 of `[6, 30]` — a gap — and 3
batches are dispatched although the claim's count
`ceil(((30 − 6)/2 + 1) / 10)` is 2.  The cause is the driver's
`n_fin_batch = n_actual + tamaño_batch − 1` followed by
`n_actual = n_fin_batch + 2`, which steps over one even number whenever
the batch start is even and the batch size is even. -/
theorem C1_particion_con_hueco :
    lotesDespachados (verificacion_masiva_goldbach ⟨4, 0, 0, []⟩ 30 10 1) =
        [(6, 15), (17, 26), (28, 30)] ∧
      (∀ b ∈ lotesDespachados (verificacion_masiva_goldbach ⟨4, 0, 0, []⟩ 30 10 1),
        ¬ (b.1 ≤ 16 ∧ 16 ≤ b.2)) ∧
      16 % 2 = 0 ∧ 6 ≤ 16 ∧ 16 ≤ 30 ∧
      (lotesDespachados (verificacion_masiva_goldbach ⟨4, 0, 0, []⟩ 30 10 1)).length = 3 ∧
      ((30 - 6) / 2 + 1 + 10 - 1) / 10 = 2 := by
  decide

/-- C2 (refuted; code bug): in the same run, after the second round is
merged the progress records `last_verified = 26`, yet the even number 16
of `[6, 26]` was never verified by any dispatched batch — the
exactly-once coverage invariant fails because of the dispatch gap of C1. -/
theorem C2_invariante_roto :
    (estadosGuardado (verificacion_masiva_goldbach ⟨4, 0, 0, []⟩ 30 10 1))[1]? =
        some ⟨26, 10, 10, []⟩ ∧
      ((lotesDespachados (verificacion_masiva_goldbach ⟨4, 0, 0, []⟩ 30 10 1)).take 2).flatMap
          verificadosDeLote = [6, 8, 10, 12, 14, 18, 20, 22, 24, 26] ∧
      16 ∉ ([6, 8, 10, 12, 14, 18, 20, 22, 24, 26] : List Nat) ∧
      16 % 2 = 0 ∧ 6 ≤ 16 ∧ 16 ≤ 26 := by
  decide

/-- C5 (refuted; code bug): the very first progress state offered to the
periodic checkpoint save in that run has `last_verified = 15`, an odd
number — the `last_verified is even` schema invariant fails, because
batch ends `n_actual + tamaño_batch − 1` alternate parity. -/
theorem C5_guardado_impar :
    (estadosGuardado (verificacion_masiva_goldbach ⟨4, 0, 0, []⟩ 30 10 1)).head? =
        some ⟨15, 5, 5, []⟩ ∧ 15 % 2 = 1 := by
  decide

/-- C6 (confirmed): an odd batch start `s` is normalized to `s + 1` before
verification — the whole call behaves exactly like the call with start
`s + 1`, the recorded range starts at `s + 1`, the odd value `s` is not
among the verified numbers, and the rest of the batch is verified
normally (one verification per listed number). -/
theorem C6_inicio_impar (s e : Nat) (cache : CachePrimos) (h : s % 2 = 1) :
    verificar_goldbach_rango s e cache = verificar_goldbach_rango (s + 1) e cache ∧
      (verificar_goldbach_rango s e cache).1.rango.1 = s + 1 ∧
      s ∉ pyRange (s + 1) (e + 1) 2 ∧
      (verificar_goldbach_rango s e cache).1.verificados =
        (pyRange (s + 1) (e + 1) 2).length := by
  have heq : verificar_goldbach_rango s e cache = verificar_goldbach_rango (s + 1) e cache := by
    simp only [verificar_goldbach_rango]
    rw [if_pos (by omega : s % 2 ≠ 0), if_neg (by omega : ¬ (s + 1) % 2 ≠ 0)]
  refine ⟨heq, ?_, ?_, ?_⟩
  · rw [heq]
    simp only [verificar_goldbach_rango]
    rw [if_neg (by omega : ¬ (s + 1) % 2 ≠ 0)]
    show ((pyRange (s + 1) (e + 1) 2).foldl
      (procesarN (obtener_primos_hasta cache e).1) ⟨(s + 1, e), 0, 0, [], ⊤, 0⟩).rango.1 = s + 1
    rw [foldl_procesarN_rango]
  · intro hmem
    rw [mem_pyRange (by omega : (0 : Nat) < 2)] at hmem
    obtain ⟨m, hm, -⟩ := hmem
    omega
  · rw [heq]
    simp only [verificar_goldbach_rango]
    rw [if_neg (by omega : ¬ (s + 1) % 2 ≠ 0)]
    show ((pyRange (s + 1) (e + 1) 2).foldl
      (procesarN (obtener_primos_hasta cache e).1) ⟨(s + 1, e), 0, 0, [], ⊤, 0⟩).verificados =
      (pyRange (s + 1) (e + 1) 2).length
    rw [foldl_procesarN_verificados]
    simp

/-- Witness for C6: start 7 is verified from 8. -/
theorem C6_inicio_impar_witness :
    7 % 2 = 1 ∧
      verificar_goldbach_rango 7 8 [] = verificar_goldbach_rango 8 8 [] ∧
      (verificar_goldbach_rango 7 8 []).1.rango.1 = 8 :=
  ⟨by decide, (C6_inicio_impar 7 8 [] (by decide)).1,
    (C6_inicio_impar 7 8 [] (by decide)).2.1⟩

/-- C7 (confirmed): a fresh driver invocation resumes at
`last_verified + 2` rounded up to even — that value is even, it is the
start (and, with the batch cap applied, the pair) of the first dispatched
batch, and it is the first number that batch verifies; for a checkpoint
with `last_verified = 998` the resume point is 1000. -/
theorem C7_reanudacion (p : Progreso) (nFinal tamanoBatch cores : Nat)
    (hc : 1 ≤ cores) (hB : 1 ≤ tamanoBatch)
    (h : corregirPar (p.ultimo_n_verificado + 2) < nFinal) :
    (lotesDespachados (verificacion_masiva_goldbach p nFinal tamanoBatch cores)).head? =
        some (corregirPar (p.ultimo_n_verificado + 2),
          min (corregirPar (p.ultimo_n_verificado + 2) + tamanoBatch - 1) nFinal) ∧
      corregirPar (p.ultimo_n_verificado + 2) % 2 = 0 ∧
      (verificadosDeLote (corregirPar (p.ultimo_n_verificado + 2),
          min (corregirPar (p.ultimo_n_verificado + 2) + tamanoBatch - 1) nFinal)).head? =
        some (corregirPar (p.ultimo_n_verificado + 2)) ∧
      (p.ultimo_n_verificado = 998 → corregirPar (p.ultimo_n_verificado + 2) = 1000) := by
  set s := corregirPar (p.ultimo_n_verificado + 2) with hs
  refine ⟨?_, corregirPar_par _, ?_, ?_⟩
  · simp only [lotesDespachados, verificacion_masiva_goldbach]
    rw [if_neg (by omega : ¬ nFinal ≤ s)]
    obtain ⟨f, hf⟩ : ∃ f, nFinal + 1 - s = f + 1 := ⟨nFinal - s, by omega⟩
    rw [hf]
    exact bucleRondas_head f s nFinal tamanoBatch cores hc (by omega) p
  · unfold verificadosDeLote
    rw [corregirPar_de_par (corregirPar_par _)]
    apply pyRange_head
    have h1 : s ≤ s + tamanoBatch - 1 := by omega
    have h2 : s ≤ nFinal := by omega
    have := Nat.le_min.mpr ⟨h1, h2⟩
    omega
  · intro h998
    rw [hs, h998]
    decide

/-- Witness for C7 at `last_verified = 998`, `n_final = 2000`. -/
theorem C7_reanudacion_witness :
    (1 : Nat) ≤ 1 ∧ (1 : Nat) ≤ 10 ∧ corregirPar (998 + 2) < 2000 ∧
      (lotesDespachados (verificacion_masiva_goldbach ⟨998, 0, 0, []⟩ 2000 10 1)).head? =
        some (corregirPar ((998 : Nat) + 2), min (corregirPar ((998 : Nat) + 2) + 10 - 1) 2000) ∧
      corregirPar ((998 : Nat) + 2) = 1000 :=
  ⟨by decide, by decide, by decide,
    (C7_reanudacion ⟨998, 0, 0, []⟩ 2000 10 1 (by decide) (by decide) (by decide)).1,
    (C7_reanudacion ⟨998, 0, 0, []⟩ 2000 10 1 (by decide) (by decide) (by decide)).2.2.2 rfl⟩

/-- C10 (confirmed): when the rounded resume point
`corregirPar(last_verified + 2)` has reached `n_final`, the driver
dispatches nothing and returns the loaded progress unchanged — in
particular a resume point equal to `n_final` means `n_final` itself is
never verified. -/
theorem C10_sin_trabajo (p : Progreso) (nFinal tamanoBatch cores : Nat)
    (h : nFinal ≤ corregirPar (p.ultimo_n_verificado + 2)) :
    verificacion_masiva_goldbach p nFinal tamanoBatch cores = (p, []) := by
  simp only [verificacion_masiva_goldbach]
  rw [if_pos h]

/-- Witness for C10: resume point 1000 with `n_final = 1000` does nothing. -/
theorem C10_sin_trabajo_witness :
    (1000 : Nat) ≤ corregirPar (998 + 2) ∧
      verificacion_masiva_goldbach ⟨998, 0, 0, []⟩ 1000 10000 4 = (⟨998, 0, 0, []⟩, []) :=
  ⟨by decide, C10_sin_trabajo ⟨998, 0, 0, []⟩ 1000 10000 4 (by decide)⟩

/-- C3 (refuted; code bug): at `limite = 2` the segmented sieve returns the
empty list — the short-circuit branch cuts the small-prime table (which
only covers `[0, sqrt_limite)`, i.e. `{0, 1}`) instead of sieving up to
`limite`, losing the prime 2 — while the flat sieve returns `[2]`.  For
every other limit the two sieves agree exactly. -/
theorem C3_criba_segmentada_en_dos :
    criba_eratostenes_segmentada 2 = [] ∧
      criba_eratostenes_simple 2 = [2] ∧
      criba_eratostenes_segmentada 2 ≠ criba_eratostenes_simple 2 ∧
      (∀ l : Nat, l ≠ 2 → criba_eratostenes_segmentada l = criba_eratostenes_simple l) := by
  refine ⟨by decide, by decide, by decide, fun l hl => ?_⟩
  rw [criba_seg_eq hl, criba_simple_eq]

/-- Witness for the universally quantified part of C3's theorem. -/
theorem C3_criba_segmentada_en_dos_witness :
    (3 : Nat) ≠ 2 ∧ criba_eratostenes_segmentada 3 = criba_eratostenes_simple 3 :=
  ⟨by decide, C3_criba_segmentada_en_dos.2.2.2 3 (by decide)⟩

/-- C8 counterexample: a parsed checkpoint dictionary that is structurally
invalid for the schema (only `ultimo_n_verificado` present) is returned
as-is by the loader, not replaced by the default record. -/
theorem C8_contraejemplo :
    ¬ esquemaValido ⟨some 10, none, none, none, none⟩ ∧
      cargar_progreso 6 (Archivo.contenido ⟨some 10, none, none, none, none⟩) =
        ⟨some 10, none, none, none, none⟩ ∧
      cargar_progreso 6 (Archivo.contenido ⟨some 10, none, none, none, none⟩) ≠
        progresoPorDefecto 6 := by
  exact ⟨by decide, rfl, by decide⟩

/-- C8 (amended): the loader never fails and returns the default record
exactly when the file is missing, unreadable/unparseable, or the parsed
value's `ultimo_n_verificado` entry is missing or unusable; a parsed
dictionary whose `ultimo_n_verificado` is usable is returned as-is, even
when other schema fields are missing. -/
theorem C8_cargar_progreso (nInicial : Nat) (d : DictProgreso) :
    cargar_progreso nInicial Archivo.ausente = progresoPorDefecto nInicial ∧
      cargar_progreso nInicial Archivo.ilegible = progresoPorDefecto nInicial ∧
      cargar_progreso nInicial (Archivo.contenido d) =
        (if d.ultimo_n_verificado.isSome then d else progresoPorDefecto nInicial) := by
  refine ⟨rfl, rfl, ?_⟩
  cases hu : d.ultimo_n_verificado with
  | none => simp [cargar_progreso, hu]
  | some v => simp [cargar_progreso, hu]

/-- C9 counterexample: batch verification is not free of side effects
beyond the returned result — it mutates the shared prime cache (here,
the empty cache gains an entry for bound 6). -/
theorem C9_contraejemplo : (verificar_goldbach_rango 6 6 []).2 ≠ ([] : CachePrimos) := by
  decide

/-- C9 (amended): on any coherent cache state the returned result is a
pure, deterministic function of `(start, end)` alone — identical to the
empty-cache run — and the only effect is memoizing the sieve output for
the batch end into the cache. -/
theorem C9_determinismo (s e : Nat) (cache : CachePrimos) (hc : cacheCorrecta cache) :
    (verificar_goldbach_rango s e cache).1 = (verificar_goldbach_rango s e []).1 ∧
      (verificar_goldbach_rango s e cache).2 =
        (if (cache.find? (fun kv => kv.1 == e)).isSome then cache
         else cache ++ [(e, criba_eratostenes_segmentada e)]) := by
  have hget : obtener_primos_hasta cache e =
      (criba_eratostenes_segmentada e,
        if (cache.find? (fun kv => kv.1 == e)).isSome then cache
        else cache ++ [(e, criba_eratostenes_segmentada e)]) := by
    unfold obtener_primos_hasta
    cases hf : cache.find? (fun kv => kv.1 == e) with
    | none => simp [hf]
    | some kv =>
        have hmem := List.mem_of_find?_eq_some hf
        have hpred := List.find?_some hf
        have hke : kv.1 = e := by simpa using hpred
        have hval := hc kv hmem
        simp only [hf, Option.isSome_some, if_true]
        rw [hval, hke]
  have hget0 : obtener_primos_hasta [] e =
      (criba_eratostenes_segmentada e, [(e, criba_eratostenes_segmentada e)]) := by
    simp [obtener_primos_hasta]
  constructor
  · simp only [verificar_goldbach_rango, hget, hget0]
  · simp only [verificar_goldbach_rango, hget]

/-- Witness for C9's amended theorem on a concrete coherent cache. -/
theorem C9_determinismo_witness :
    cacheCorrecta [(4, criba_eratostenes_segmentada 4)] ∧
      (verificar_goldbach_rango 6 6 [(4, criba_eratostenes_segmentada 4)]).1 =
        (verificar_goldbach_rango 6 6 []).1 :=
  ⟨by decide, (C9_determinismo 6 6 [(4, criba_eratostenes_segmentada 4)] (by decide)).1⟩
